import Mathlib

/-!
# A shallow embedding of RPFM's Loc-table codec

This file embeds the Loc PackedFile codec of `rpfm_lib`
(`src/rpfm_lib/src/packedfile/table/loc.rs`) in Lean 4 and proves the
specification's claims about it.

* `Loc.read`, `Loc.save`, `Loc.optimize_table` and `Loc.set_table_data` are
  translated directly from `loc.rs`.
* The generic `Table` machinery (`Table::decode`, `Table::encode`,
  `Table::set_table_data`) and the primitive byte codec live outside the
  sources available here; they are modelled from the specification's §4.1/§4.2
  (see the doc comments starting with `Modelled from the spec`).

Machine integers are represented by `Nat` raw bit patterns (values `< 2^w`);
byte buffers are `List Nat` with every byte `< 256`.  The signed 32-bit
version field is kept as its unsigned 32-bit pattern, since the codec only
moves it around and compares it for equality.
-/

namespace Rpfm

/-- Modelled from the spec (§3, §4.1): the semantic types a Field can carry.
The `Field`/`Definition` model is not under the available sources; the spec's
tagged-variant list (boolean, fixed-width integers, floating point, short
string, long string, optional variants) is represented by one variant per
category.  Floating-point values are carried as raw 32-bit patterns, which is
all the codec ever does with them. -/
inductive FieldType
  | boolean
  | i32
  | f32
  | stringU8
  | stringU16
  | optStringU16
deriving DecidableEq

/-- Modelled from the spec (§3): a tagged union holding exactly one concrete
value matching a Field's semantic type.  Strings are sequences of code units
(bytes for the 8-bit encoding, UTF-16 units for the 16-bit one). -/
inductive DecodedData
  | boolean (b : Bool)
  | i32 (bits : Nat)
  | f32 (bits : Nat)
  | stringU8 (s : List Nat)
  | stringU16 (s : List Nat)
  | optStringU16 (s : Option (List Nat))
deriving DecidableEq

/-- Modelled from the spec (§3): one column's contract.  Display metadata and
cross-reference metadata play no role in the codec and are omitted. -/
structure Field where
  name : String
  field_type : FieldType
deriving DecidableEq

/-- Modelled from the spec (§3): an ordered sequence of Fields plus an integer
version identifier (kept as its raw unsigned 32-bit pattern). -/
structure Definition where
  version : Nat
  fields : List Field
deriving DecidableEq

/-- Modelled from the spec (§3): a Table owns one Definition and an ordered
sequence of rows. -/
structure Table where
  definition : Definition
  entries : List (List DecodedData)
deriving DecidableEq

/-- The `Loc` type from `loc.rs`: a decoded Localisation PackedFile, wrapping a
`Table`. -/
structure Loc where
  table : Table
deriving DecidableEq

/-- The error kinds surfaced by the embedded codec, mirroring the
`ErrorKind` variants used in `loc.rs` plus the propagated schema and
primitive-decoder errors. -/
inductive ErrorKind
  | locPackedFileIsNotALocPackedFile
  | tableEmptyWithNoDefinition
  | schemaVersionedFileNotFound
  | schemaDefinitionNotFound
  | packedFileSizeIsNotWhatWeExpect (expected : Nat) (actual : Nat)
  | decodeError
  | tableShapeMismatch (row : Nat)
  | tableEncodeShapeError
deriving DecidableEq

/-- The schema store, as the codec sees it (§6): it may or may not have a
versioned file for the Loc kind, and that versioned file maps version numbers
to Definitions. -/
structure Schema where
  versioned_file_loc : Option (List (Nat × Definition))
deriving DecidableEq

deriving instance DecidableEq for Except

/-- Look a Definition up by version inside a versioned file
(`VersionedFile::get_version`). -/
def getVersion (vf : List (Nat × Definition)) (version : Nat) : Option Definition :=
  match vf with
  | [] => none
  | (v, d) :: rest => if v = version then some d else getVersion rest version

/-- This represents the value that every LOC PackedFile has in their first 2
bytes (`BYTEORDER_MARK` in `loc.rs`). -/
def BYTEORDER_MARK : Nat := 65279

/-- The byte representation of the ASCII tag `LOC`
(`PACKED_FILE_TYPE` in `loc.rs`). -/
def PACKED_FILE_TYPE : List Nat := [76, 79, 67]

/-- Modelled from the spec (§4.1): encode a `Nat` as `w` little-endian bytes
(the written value is the input reduced modulo `2^(8*w)`). -/
def encU : Nat → Nat → List Nat
  | 0, _ => []
  | w + 1, n => n % 256 :: encU w (n / 256)

/-- Modelled from the spec (§4.1): decode `w` little-endian bytes starting at
offset `i`, failing (out-of-bounds) if the span exceeds the buffer. -/
def decU (buf : List Nat) (i : Nat) : Nat → Option Nat
  | 0 => some 0
  | w + 1 =>
    match buf[i]? with
    | none => none
    | some b =>
      match decU buf (i + 1) w with
      | none => none
      | some n => some (b + 256 * n)

/-- Modelled from the spec (§4.1): encode a sequence of code units, each as
`w` little-endian bytes. -/
def encUnits (w : Nat) (s : List Nat) : List Nat :=
  s.flatMap (encU w)

/-- Modelled from the spec (§4.1): decode `cnt` code units of width `w`
starting at offset `i`; returns the units and the offset one past them. -/
def decUnits (buf : List Nat) (i w : Nat) : Nat → Option (List Nat × Nat)
  | 0 => some ([], i)
  | c + 1 =>
    match decU buf i w with
    | none => none
    | some u =>
      match decUnits buf (i + w) w c with
      | none => none
      | some (us, j) => some (u :: us, j)

/-- A UTF-8 continuation byte. -/
def isCont (b : Nat) : Bool := 128 ≤ b && b < 192

/-- Modelled from the spec (§4.1): strings are "strictly validated as
decodable text".  This is the standard UTF-8 well-formedness check on a byte
sequence. -/
def utf8Valid : List Nat → Bool
  | [] => true
  | b :: rest =>
    if b < 128 then utf8Valid rest
    else if 194 ≤ b && b ≤ 223 then
      match rest with
      | c :: r => isCont c && utf8Valid r
      | _ => false
    else if b = 224 then
      match rest with
      | c :: d :: r => (160 ≤ c && c < 192) && isCont d && utf8Valid r
      | _ => false
    else if 225 ≤ b && b ≤ 236 then
      match rest with
      | c :: d :: r => isCont c && isCont d && utf8Valid r
      | _ => false
    else if b = 237 then
      match rest with
      | c :: d :: r => (128 ≤ c && c < 160) && isCont d && utf8Valid r
      | _ => false
    else if 238 ≤ b && b ≤ 239 then
      match rest with
      | c :: d :: r => isCont c && isCont d && utf8Valid r
      | _ => false
    else if b = 240 then
      match rest with
      | c :: d :: e :: r => (144 ≤ c && c < 192) && isCont d && isCont e && utf8Valid r
      | _ => false
    else if 241 ≤ b && b ≤ 243 then
      match rest with
      | c :: d :: e :: r => isCont c && isCont d && isCont e && utf8Valid r
      | _ => false
    else if b = 244 then
      match rest with
      | c :: d :: e :: r => (128 ≤ c && c < 144) && isCont d && isCont e && utf8Valid r
      | _ => false
    else false

/-- A UTF-16 code unit that is not a surrogate.  The model rejects all
surrogate units; the claims under study never exercise surrogate pairs. -/
def validU16 (u : Nat) : Bool := u < 55296 || (57343 < u && u < 65536)

/-- Modelled from the spec (§4.1): encode a length-prefixed string — a 16-bit
little-endian code-unit count followed by the units at width `w`. -/
def encStr (w : Nat) (s : List Nat) : List Nat :=
  encU 2 s.length ++ encUnits w s

/-- Modelled from the spec (§4.1): decode a length-prefixed string of
code-unit width `w` at offset `i`. -/
def decStr (buf : List Nat) (i w : Nat) : Option (List Nat × Nat) :=
  match decU buf i 2 with
  | none => none
  | some len => decUnits buf (i + 2) w len

/-- Modelled from the spec (§4.1): decode a boolean byte; `0` and `1` are the
only canonical encodings, anything else is an encoding error. -/
def decBool (buf : List Nat) (i : Nat) : Option (Bool × Nat) :=
  match buf[i]? with
  | some 0 => some (false, i + 1)
  | some 1 => some (true, i + 1)
  | _ => none

/-- Modelled from the spec (§4.2): decode one cell of the given field type at
offset `i`, returning the value and the offset one past it.  String payloads
are validated as decodable text. -/
def decodeCell (ft : FieldType) (buf : List Nat) (i : Nat) : Option (DecodedData × Nat) :=
  match ft with
  | .boolean =>
    match decBool buf i with
    | none => none
    | some (b, j) => some (.boolean b, j)
  | .i32 =>
    match decU buf i 4 with
    | none => none
    | some n => some (.i32 n, i + 4)
  | .f32 =>
    match decU buf i 4 with
    | none => none
    | some n => some (.f32 n, i + 4)
  | .stringU8 =>
    match decStr buf i 1 with
    | none => none
    | some (s, j) => if utf8Valid s then some (.stringU8 s, j) else none
  | .stringU16 =>
    match decStr buf i 2 with
    | none => none
    | some (s, j) => if s.all validU16 then some (.stringU16 s, j) else none
  | .optStringU16 =>
    match decBool buf i with
    | none => none
    | some (false, j) => some (.optStringU16 none, j)
    | some (true, j) =>
      match decStr buf j 2 with
      | none => none
      | some (s, k) => if s.all validU16 then some (.optStringU16 (some s), k) else none

/-- Modelled from the spec (§4.2): encode one cell according to its own tag. -/
def encodeCell : DecodedData → List Nat
  | .boolean b => [if b then 1 else 0]
  | .i32 n => encU 4 n
  | .f32 n => encU 4 n
  | .stringU8 s => encStr 1 s
  | .stringU16 s => encStr 2 s
  | .optStringU16 none => [0]
  | .optStringU16 (some s) => 1 :: encStr 2 s

/-- Does a cell's tag match a field type? -/
def cellMatches (ft : FieldType) (c : DecodedData) : Bool :=
  match ft, c with
  | .boolean, .boolean _ => true
  | .i32, .i32 _ => true
  | .f32, .f32 _ => true
  | .stringU8, .stringU8 _ => true
  | .stringU16, .stringU16 _ => true
  | .optStringU16, .optStringU16 _ => true
  | _, _ => false

/-- A row matches a field list when lengths agree and every position's tag
matches (§3's row-shape invariant). -/
def rowMatchesFields : List Field → List DecodedData → Bool
  | [], [] => true
  | f :: fs, c :: cs => cellMatches f.field_type c && rowMatchesFields fs cs
  | _, _ => false

/-- Value bounds under which a cell re-decodes to itself: integer patterns fit
32 bits, string lengths fit the 16-bit prefix, and code units are valid for
their encoding. -/
def cellWF : DecodedData → Bool
  | .boolean _ => true
  | .i32 n => n < 2 ^ 32
  | .f32 n => n < 2 ^ 32
  | .stringU8 s => s.length < 2 ^ 16 && s.all (fun u => u < 2 ^ 8) && utf8Valid s
  | .stringU16 s => s.length < 2 ^ 16 && s.all validU16
  | .optStringU16 none => true
  | .optStringU16 (some s) => s.length < 2 ^ 16 && s.all validU16

/-- Modelled from the spec (§4.2): decode one row, iterating the Definition's
fields in order. -/
def decodeRow : List Field → List Nat → Nat → Option (List DecodedData × Nat)
  | [], _, i => some ([], i)
  | f :: fs, buf, i =>
    match decodeCell f.field_type buf i with
    | none => none
    | some (c, j) =>
      match decodeRow fs buf j with
      | none => none
      | some (cs, k) => some (c :: cs, k)

/-- Modelled from the spec (§4.2): `Table::decode` — decode `cnt` rows
starting at offset `i`, failing on the first malformed field. -/
def decodeRows (fields : List Field) (buf : List Nat) (i : Nat) :
    Nat → Option (List (List DecodedData) × Nat)
  | 0 => some ([], i)
  | c + 1 =>
    match decodeRow fields buf i with
    | none => none
    | some (r, j) =>
      match decodeRows fields buf j c with
      | none => none
      | some (rs, k) => some (r :: rs, k)

/-- Encode one row, fields in Definition order. -/
def encodeRow (row : List DecodedData) : List Nat :=
  row.flatMap encodeCell

/-- Modelled from the spec (§4.2): `Table::encode` body — rows in order, each
in field order. -/
def encodeRows (rows : List (List DecodedData)) : List Nat :=
  rows.flatMap encodeRow

/-- Index of the first row that does not match the field list, if any. -/
def firstBadRow (fields : List Field) : List (List DecodedData) → Nat → Option Nat
  | [], _ => none
  | r :: rs, i =>
    if rowMatchesFields fields r then firstBadRow fields rs (i + 1) else some i

/-- Modelled from the spec (§4.2): `Table::set_table_data` — replace all rows
after validating every row's shape against the current Definition; fail with a
shape-mismatch error naming the first bad row's index, leaving the existing
data untouched. -/
def Table.set_table_data (t : Table) (data : List (List DecodedData)) :
    Table × Option ErrorKind :=
  match firstBadRow t.definition.fields data 0 with
  | some i => (t, some (.tableShapeMismatch i))
  | none => ({ t with entries := data }, none)

/-- Modelled from the spec (§4.2): `Table::encode` — encoding a row whose
shape mismatches the Definition must fail rather than write malformed
output. -/
def Table.encode (t : Table) : Except ErrorKind (List Nat) :=
  if t.entries.all (fun r => rowMatchesFields t.definition.fields r) then
    .ok (encodeRows t.entries)
  else .error .tableEncodeShapeError

/-- Function `Loc::set_table_data` from `loc.rs`: delegates to the table. -/
def Loc.set_table_data (l : Loc) (data : List (List DecodedData)) :
    Loc × Option ErrorKind :=
  match l.table.set_table_data data with
  | (t, e) => (⟨t⟩, e)

/-- Function `Loc::read` from `loc.rs`, line for line: header checks, version and
entry-count decode, schema lookup with the empty-table special case, row
decode from offset 14, and the final exact-size check. -/
def Loc.read (packed_file_data : List Nat) (schema : Schema) : Except ErrorKind Loc :=
  if packed_file_data.length < 14 then .error .locPackedFileIsNotALocPackedFile
  else
    match decU packed_file_data 0 2 with
    | none => .error .decodeError
    | some marker =>
      if BYTEORDER_MARK ≠ marker then .error .locPackedFileIsNotALocPackedFile
      else
        match decUnits packed_file_data 2 1 3 with
        | none => .error .decodeError
        | some (tag, _) =>
          if ¬ utf8Valid tag then .error .decodeError
          else if PACKED_FILE_TYPE ≠ tag then .error .locPackedFileIsNotALocPackedFile
          else
            match decU packed_file_data 6 4 with
            | none => .error .decodeError
            | some version =>
              match decU packed_file_data 10 4 with
              | none => .error .decodeError
              | some entry_count =>
                match schema.versioned_file_loc with
                | none =>
                  if entry_count = 0 then .error .tableEmptyWithNoDefinition
                  else .error .schemaVersionedFileNotFound
                | some vf =>
                  match getVersion vf version with
                  | none =>
                    if entry_count = 0 then .error .tableEmptyWithNoDefinition
                    else .error .schemaDefinitionNotFound
                  | some definition =>
                    match decodeRows definition.fields packed_file_data 14 entry_count with
                    | none => .error .decodeError
                    | some (entries, index) =>
                      if index ≠ packed_file_data.length then
                        .error (.packedFileSizeIsNotWhatWeExpect packed_file_data.length index)
                      else .ok ⟨⟨definition, entries⟩⟩

/-- Function `Loc::save` from `loc.rs`: the 14-byte header (byte-order mark, tag,
padding byte, version, row count) followed by the `Table::encode` body. -/
def Loc.save (l : Loc) : Except ErrorKind (List Nat) :=
  match l.table.encode with
  | .error e => .error e
  | .ok body =>
    .ok (encU 2 BYTEORDER_MARK ++ PACKED_FILE_TYPE ++ [0] ++
         encU 4 l.table.definition.version ++ encU 4 l.table.entries.length ++ body)

/-- The replacement row list built by `Loc::optimize_table`: for each entry in
order, one copy per version-matching vanilla table whose rows contain it
(`continue` in the source skips to the next vanilla table, so a row found in
several tables is pushed several times). -/
def Loc.optimizedEntries (l : Loc) (vanilla_tables : List Loc) : List (List DecodedData) :=
  l.table.entries.flatMap (fun entry =>
    (vanilla_tables.filter
        (fun x => x.table.definition.version = l.table.definition.version)).filterMap
      (fun x => if entry ∈ x.table.entries then some entry else none))

/-- Function `Loc::optimize_table` from `loc.rs`: overwrite the entries with the
replacement list via `set_table_data` (its error discarded, leaving the data
unchanged in that case) and report whether the resulting table is empty. -/
def Loc.optimize_table (l : Loc) (vanilla_tables : List Loc) : Loc × Bool :=
  match l.table.set_table_data (l.optimizedEntries vanilla_tables) with
  | (t, _) => (⟨t⟩, t.entries.isEmpty)

/-- All rows of a Loc match its own Definition and all cell values are in
range: the state every `Loc` reachable through the API satisfies. -/
def Loc.wf (l : Loc) : Bool :=
  l.table.definition.version < 2 ^ 32 &&
  l.table.entries.length < 2 ^ 32 &&
  l.table.entries.all (fun r =>
    rowMatchesFields l.table.definition.fields r && r.all cellWF)

/-- The three-column key / text / is-tooltip Definition used by Loc tables,
at version 1. -/
def locFields : List Field :=
  [⟨"key", .stringU16⟩, ⟨"text", .stringU16⟩, ⟨"tooltip", .boolean⟩]

/-- A concrete version-1 Loc Definition. -/
def locDef1 : Definition := ⟨1, locFields⟩

/-- The row (key="a", text="b", tooltip=false), code units being ASCII. -/
def rowAB : List DecodedData :=
  [.stringU16 [97], .stringU16 [98], .boolean false]

/-- A schema that resolves Loc version 1 to `locDef1`. -/
def schema1 : Schema := ⟨some [(1, locDef1)]⟩

/-- A concrete one-row Loc table over `locDef1`. -/
def locEx : Loc := ⟨⟨locDef1, [rowAB]⟩⟩

/-- Rows appear in `optimizedEntries` exactly when they are rows of the
working table that also occur in at least one version-matching vanilla
table. -/
theorem mem_optimizedEntries (l : Loc) (vs : List Loc) (r : List DecodedData) :
    r ∈ l.optimizedEntries vs ↔
      r ∈ l.table.entries ∧
        ∃ v ∈ vs, v.table.definition.version = l.table.definition.version ∧
          r ∈ v.table.entries := by
  simp only [Loc.optimizedEntries, List.mem_flatMap, List.mem_filterMap, List.mem_filter,
    decide_eq_true_eq]
  constructor
  · rintro ⟨e, he, x, ⟨hx, hver⟩, hsome⟩
    by_cases hm : e ∈ x.table.entries
    · rw [if_pos hm] at hsome
      cases hsome
      exact ⟨he, x, hx, hver, hm⟩
    · rw [if_neg hm] at hsome
      cases hsome
  · rintro ⟨hr, v, hv, hver, hm⟩
    exact ⟨r, hr, v, ⟨hv, hver⟩, if_pos hm⟩

/-- When every candidate row matches the Definition, the scan finds no bad
row. -/
theorem firstBadRow_eq_none (fields : List Field) :
    ∀ (data : List (List DecodedData)) (k : Nat),
      (∀ r ∈ data, rowMatchesFields fields r = true) →
      firstBadRow fields data k = none := by
  intro data
  induction data with
  | nil => intro k _; rfl
  | cons d ds ih =>
    intro k h
    simp only [firstBadRow]
    rw [if_pos (h d (List.mem_cons_self d ds))]
    exact ih (k + 1) fun r hr => h r (List.mem_cons_of_mem d hr)

/-- The scan reports exactly the index of the first row whose shape differs
from the Definition. -/
theorem firstBadRow_eq_some (fields : List Field) :
    ∀ (data : List (List DecodedData)) (i k : Nat) (r : List DecodedData),
      (∀ x ∈ data.take i, rowMatchesFields fields x = true) →
      data[i]? = some r → rowMatchesFields fields r = false →
      firstBadRow fields data k = some (k + i) := by
  intro data
  induction data with
  | nil =>
    intro i k r _ h2 _
    simp at h2
  | cons d ds ih =>
    intro i k r h1 h2 h3
    cases i with
    | zero =>
      rw [List.getElem?_cons_zero, Option.some.injEq] at h2
      subst h2
      simp only [firstBadRow]
      rw [if_neg (by simp [h3])]
      rfl
    | succ i =>
      have hd : rowMatchesFields fields d = true := by
        apply h1
        rw [List.take_succ_cons]
        exact List.mem_cons_self d _
      simp only [firstBadRow]
      rw [if_pos hd]
      have hrec := ih i (k + 1) r
        (fun x hx => h1 x (by rw [List.take_succ_cons]; exact List.mem_cons_of_mem d hx))
        (by simpa using h2) h3
      rw [hrec]
      congr 1
      omega

/-- When every row of the working table matches its Definition (the invariant
every reachable `Loc` satisfies), `optimize_table` replaces the entries with
`optimizedEntries` and reports its emptiness. -/
theorem optimize_table_eq (l : Loc) (vs : List Loc)
    (h : ∀ r ∈ l.table.entries, rowMatchesFields l.table.definition.fields r = true) :
    l.optimize_table vs =
      (⟨⟨l.table.definition, l.optimizedEntries vs⟩⟩, (l.optimizedEntries vs).isEmpty) := by
  have hall : ∀ r ∈ l.optimizedEntries vs, rowMatchesFields l.table.definition.fields r = true :=
    fun r hr => h r ((mem_optimizedEntries l vs r).1 hr).1
  simp [Loc.optimize_table, Table.set_table_data, firstBadRow_eq_none _ _ 0 hall]

/-- C1 (amended): after `optimize_table`, a row is present exactly when it was
a row of the working table occurring, value-for-value, in at least one
reference table whose Definition version equals the working table's version;
rows with no version-matching reference table, or absent from all of them, are
dropped (not retained). -/
theorem optimize_table_keeps_iff_in_vanilla (l : Loc) (vs : List Loc) (r : List DecodedData)
    (h : ∀ x ∈ l.table.entries, rowMatchesFields l.table.definition.fields x = true) :
    r ∈ (l.optimize_table vs).1.table.entries ↔
      r ∈ l.table.entries ∧
        ∃ v ∈ vs, v.table.definition.version = l.table.definition.version ∧
          r ∈ v.table.entries := by
  rw [optimize_table_eq l vs h]
  exact mem_optimizedEntries l vs r

/-- C1 witness: a row present in a version-matching reference table is kept. -/
theorem optimize_table_keeps_iff_in_vanilla_witness :
    rowAB ∈ (Loc.optimize_table locEx [locEx]).1.table.entries :=
  (optimize_table_keeps_iff_in_vanilla locEx [locEx] rowAB (by decide)).mpr
    ⟨by decide, locEx, by decide, by decide, by decide⟩

/-- C1 counterexample: with no reference tables, the working table's only row
is dropped by the pass, not retained unconditionally. -/
theorem optimize_table_drops_unmatched_row :
    (Loc.optimize_table locEx []).1.table.entries = [] ∧ locEx.table.entries ≠ [] := by
  decide

/-- C7: the pass replaces the row set with the computed retained rows and
returns `true` exactly when the row set after the pass is empty. -/
theorem optimize_table_sets_and_reports_empty (l : Loc) (vs : List Loc)
    (h : ∀ x ∈ l.table.entries, rowMatchesFields l.table.definition.fields x = true) :
    (l.optimize_table vs).1.table.entries = l.optimizedEntries vs ∧
      ((l.optimize_table vs).2 = true ↔ (l.optimize_table vs).1.table.entries = []) := by
  rw [optimize_table_eq l vs h]
  exact ⟨rfl, List.isEmpty_iff⟩

/-- C7 witness at a concrete table with no reference tables. -/
theorem optimize_table_sets_and_reports_empty_witness :
    (Loc.optimize_table locEx []).1.table.entries = Loc.optimizedEntries locEx [] ∧
      ((Loc.optimize_table locEx []).2 = true ↔
        (Loc.optimize_table locEx []).1.table.entries = []) :=
  optimize_table_sets_and_reports_empty locEx [] (by decide)

/-- Filtering a list of tables that all contain `r` through the push-once-per
table step yields one copy of `r` per table. -/
theorem filterMap_contains_replicate (r : List DecodedData) :
    ∀ vs : List Loc, (∀ v ∈ vs, r ∈ v.table.entries) →
      vs.filterMap (fun x => if r ∈ x.table.entries then some r else none) =
        List.replicate vs.length r := by
  intro vs
  induction vs with
  | nil => intro _; rfl
  | cons v tl ih =>
    intro h
    rw [List.filterMap_cons_some (by exact if_pos (h v (List.mem_cons_self v tl))),
      ih fun x hx => h x (List.mem_cons_of_mem v hx)]
    rfl

/-- C10: a single working row found in `k` version-matching reference tables
is pushed once per such table, so the optimized table holds `k` copies of it —
more than the one copy it held before whenever `k > 1`. -/
theorem optimize_table_duplicates_per_reference (l : Loc) (vs : List Loc) (r : List DecodedData)
    (hrows : l.table.entries = [r])
    (hmatch : rowMatchesFields l.table.definition.fields r = true)
    (hv : ∀ v ∈ vs, v.table.definition.version = l.table.definition.version ∧
      r ∈ v.table.entries) :
    (l.optimize_table vs).1.table.entries = List.replicate vs.length r ∧
      (l.optimize_table vs).1.table.entries.length = vs.length := by
  have h : ∀ x ∈ l.table.entries, rowMatchesFields l.table.definition.fields x = true := by
    rw [hrows]
    intro x hx
    rw [List.mem_singleton] at hx
    subst hx
    exact hmatch
  rw [optimize_table_eq l vs h]
  have hfilter : vs.filter
      (fun x => decide (x.table.definition.version = l.table.definition.version)) = vs :=
    List.filter_eq_self.mpr fun v hv' => decide_eq_true (hv v hv').1
  have hnew : l.optimizedEntries vs = List.replicate vs.length r := by
    unfold Loc.optimizedEntries
    rw [hrows]
    simp only [List.flatMap_cons, List.flatMap_nil, List.append_nil]
    rw [hfilter, filterMap_contains_replicate r vs fun v hv' => (hv v hv').2]
  exact ⟨hnew, by rw [hnew, List.length_replicate]⟩

/-- C10 witness: one row found in two version-matching reference tables comes
out twice. -/
theorem optimize_table_duplicates_per_reference_witness :
    (Loc.optimize_table locEx [locEx, locEx]).1.table.entries = List.replicate 2 rowAB ∧
      (Loc.optimize_table locEx [locEx, locEx]).1.table.entries.length = 2 :=
  optimize_table_duplicates_per_reference locEx [locEx, locEx] rowAB (by decide) (by decide)
    (by decide)

/-- C6 (amended): a second pass with the same reference tables returns the
same boolean as the first and preserves which rows are present, though it can
change their multiplicities. -/
theorem optimize_table_idempotent_up_to_multiplicity (l : Loc) (vs : List Loc)
    (h : ∀ x ∈ l.table.entries, rowMatchesFields l.table.definition.fields x = true) :
    (Loc.optimize_table (l.optimize_table vs).1 vs).2 = (l.optimize_table vs).2 ∧
      ∀ r, r ∈ (Loc.optimize_table (l.optimize_table vs).1 vs).1.table.entries ↔
        r ∈ (l.optimize_table vs).1.table.entries := by
  have h1 := optimize_table_eq l vs h
  have hrows1 : ∀ x ∈ (⟨⟨l.table.definition, l.optimizedEntries vs⟩⟩ : Loc).table.entries,
      rowMatchesFields l.table.definition.fields x = true :=
    fun x hx => h x ((mem_optimizedEntries l vs x).1 hx).1
  have h2 := optimize_table_eq ⟨⟨l.table.definition, l.optimizedEntries vs⟩⟩ vs hrows1
  have hmem : ∀ r, r ∈ Loc.optimizedEntries ⟨⟨l.table.definition, l.optimizedEntries vs⟩⟩ vs ↔
      r ∈ l.optimizedEntries vs := by
    intro r
    rw [mem_optimizedEntries]
    constructor
    · exact fun hx => hx.1
    · intro hx
      refine ⟨hx, ?_⟩
      obtain ⟨-, v, hv, hver, hm⟩ := (mem_optimizedEntries l vs r).1 hx
      exact ⟨v, hv, hver, hm⟩
  rw [h1, h2]
  refine ⟨?_, hmem⟩
  rw [Bool.eq_iff_iff, List.isEmpty_iff, List.isEmpty_iff, List.eq_nil_iff_forall_not_mem,
    List.eq_nil_iff_forall_not_mem]
  constructor
  · intro ha r hr
    exact ha r ((hmem r).mpr hr)
  · intro ha r hr
    exact ha r ((hmem r).mp hr)

/-- C6 witness: the second pass reports the same boolean at a concrete
table. -/
theorem optimize_table_idempotent_up_to_multiplicity_witness :
    (Loc.optimize_table (Loc.optimize_table locEx [locEx]).1 [locEx]).2 =
      (Loc.optimize_table locEx [locEx]).2 :=
  (optimize_table_idempotent_up_to_multiplicity locEx [locEx] (by decide)).1

/-- C6 counterexample: with a row present in two version-matching reference
tables, the second pass squares the duplication — the state after two passes
differs from the state after one. -/
theorem optimize_table_twice_differs :
    (Loc.optimize_table (Loc.optimize_table locEx [locEx, locEx]).1 [locEx, locEx]).1 ≠
      (Loc.optimize_table locEx [locEx, locEx]).1 := by
  decide

/-- C8: `set_table_data` validates every row's shape against the current
Definition before replacing anything: if all rows match it replaces the whole
row set, and on the first row whose shape differs it fails with a
shape-mismatch error naming that row's index, leaving the data unchanged. -/
theorem set_table_data_validates_all_or_nothing (l : Loc) (data : List (List DecodedData)) :
    ((∀ r ∈ data, rowMatchesFields l.table.definition.fields r = true) →
      l.set_table_data data = (⟨⟨l.table.definition, data⟩⟩, none)) ∧
    (∀ i r, (∀ x ∈ data.take i, rowMatchesFields l.table.definition.fields x = true) →
      data[i]? = some r → rowMatchesFields l.table.definition.fields r = false →
      l.set_table_data data = (l, some (.tableShapeMismatch i))) := by
  constructor
  · intro h
    simp [Loc.set_table_data, Table.set_table_data, firstBadRow_eq_none _ data 0 h]
  · intro i r h1 h2 h3
    have h4 := firstBadRow_eq_some l.table.definition.fields data i 0 r h1 h2 h3
    simp [Loc.set_table_data, Table.set_table_data, h4]

/-- C8 witness: a matching row list is installed wholesale; a list whose
second row has the wrong shape is rejected with index 1 and the table keeps
its old single row. -/
theorem set_table_data_validates_all_or_nothing_witness :
    Loc.set_table_data ⟨⟨locDef1, []⟩⟩ [rowAB] = (⟨⟨locDef1, [rowAB]⟩⟩, none) ∧
      Loc.set_table_data locEx [rowAB, [.boolean true]] =
        (locEx, some (.tableShapeMismatch 1)) :=
  ⟨(set_table_data_validates_all_or_nothing ⟨⟨locDef1, []⟩⟩ [rowAB]).1 (by decide),
   (set_table_data_validates_all_or_nothing locEx [rowAB, [.boolean true]]).2 1
     [.boolean true] (by decide) (by decide) (by decide)⟩

/-- A `w`-wide little-endian encoding is `w` bytes long. -/
theorem encU_length (w n : Nat) : (encU w n).length = w := by
  induction w generalizing n with
  | zero => rfl
  | succ w ih => simp [encU, ih]

/-- Encoded code units occupy width times count bytes. -/
theorem encUnits_length (w : Nat) (s : List Nat) : (encUnits w s).length = w * s.length := by
  induction s with
  | nil => simp [encUnits]
  | cons u tl ih =>
    simp only [encUnits, List.flatMap_cons, List.length_append, encU_length] at ih ⊢
    rw [ih, List.length_cons, Nat.mul_succ]
    omega

/-- An encoded length-prefixed string occupies two prefix bytes plus the
units. -/
theorem encStr_length (w : Nat) (s : List Nat) :
    (encStr w s).length = 2 + w * s.length := by
  simp [encStr, encU_length, encUnits_length]

/-- Decoding a `w`-wide little-endian integer right where it was encoded
recovers the value. -/
theorem decU_append : ∀ (w n : Nat) (pre post : List Nat), n < 256 ^ w →
    decU (pre ++ (encU w n ++ post)) pre.length w = some n := by
  intro w
  induction w with
  | zero =>
    intro n pre post h
    rw [pow_zero, Nat.lt_one_iff] at h
    subst h
    rfl
  | succ w ih =>
    intro n pre post h
    have hhead : (pre ++ (encU (w + 1) n ++ post))[pre.length]? = some (n % 256) := by
      rw [List.getElem?_append_right (Nat.le_refl pre.length), Nat.sub_self]
      simp [encU]
    have htail : decU (pre ++ (encU (w + 1) n ++ post)) (pre.length + 1) w = some (n / 256) := by
      have hd : n / 256 < 256 ^ w := by
        rw [Nat.div_lt_iff_lt_mul (by norm_num)]
        calc n < 256 ^ (w + 1) := h
          _ = 256 ^ w * 256 := by rw [Nat.pow_succ]
      have heq : pre ++ (encU (w + 1) n ++ post) =
          (pre ++ [n % 256]) ++ (encU w (n / 256) ++ post) := by
        simp [encU, List.append_assoc]
      have hlen : pre.length + 1 = (pre ++ [n % 256]).length := by simp
      rw [heq, hlen]
      exact ih (n / 256) (pre ++ [n % 256]) post hd
    simp only [decU, hhead, htail, Nat.mod_add_div]

/-- A successful fixed-width integer decode is unaffected by appending bytes
to the buffer. -/
theorem decU_mono : ∀ (w : Nat) (buf ext : List Nat) (i n : Nat),
    decU buf i w = some n → decU (buf ++ ext) i w = some n := by
  intro w
  induction w with
  | zero => intro buf ext i n h; exact h
  | succ w ih =>
    intro buf ext i n h
    simp only [decU] at h ⊢
    cases hb : buf[i]? with
    | none => simp [hb] at h
    | some b =>
      simp only [hb] at h
      obtain ⟨hlt, -⟩ := List.getElem?_eq_some_iff.mp hb
      rw [List.getElem?_append_left hlt]
      simp only [hb]
      cases hd : decU buf (i + 1) w with
      | none => simp [hd] at h
      | some m =>
        simp only [hd] at h
        simp only [ih buf ext (i + 1) m hd]
        exact h

/-- A successful decode of a positive-width integer stays inside the
buffer. -/
theorem decU_bound : ∀ (w : Nat) (buf : List Nat) (i n : Nat),
    decU buf i (w + 1) = some n → i + (w + 1) ≤ buf.length := by
  intro w
  induction w with
  | zero =>
    intro buf i n h
    simp only [decU] at h
    cases hb : buf[i]? with
    | none => simp [hb] at h
    | some b =>
      obtain ⟨hlt, -⟩ := List.getElem?_eq_some_iff.mp hb
      omega
  | succ w ih =>
    intro buf i n h
    rw [decU] at h
    cases hb : buf[i]? with
    | none => simp [hb] at h
    | some b =>
      simp only [hb] at h
      cases hd : decU buf (i + 1) (w + 1) with
      | none => simp [hd] at h
      | some m =>
        have := ih buf (i + 1) m hd
        omega

/-- Decoding the code units right where they were encoded recovers them. -/
theorem decUnits_append : ∀ (s : List Nat) (w : Nat) (pre post : List Nat),
    (∀ u ∈ s, u < 256 ^ w) →
    decUnits (pre ++ (encUnits w s ++ post)) pre.length w s.length =
      some (s, pre.length + (encUnits w s).length) := by
  intro s
  induction s with
  | nil =>
    intro w pre post _
    simp [encUnits, decUnits]
  | cons u tl ih =>
    intro w pre post h
    have hu : u < 256 ^ w := h u (List.mem_cons_self u tl)
    have henc : encUnits w (u :: tl) = encU w u ++ encUnits w tl := by
      simp [encUnits]
    rw [henc]
    have h1 : decU (pre ++ ((encU w u ++ encUnits w tl) ++ post)) pre.length w = some u := by
      have heq : pre ++ ((encU w u ++ encUnits w tl) ++ post) =
          pre ++ (encU w u ++ (encUnits w tl ++ post)) := by
        simp [List.append_assoc]
      rw [heq]
      exact decU_append w u pre (encUnits w tl ++ post) hu
    have h2 : decUnits (pre ++ ((encU w u ++ encUnits w tl) ++ post)) (pre.length + w) w
        tl.length = some (tl, pre.length + w + (encUnits w tl).length) := by
      have heq : pre ++ ((encU w u ++ encUnits w tl) ++ post) =
          (pre ++ encU w u) ++ (encUnits w tl ++ post) := by
        simp [List.append_assoc]
      have hlen : pre.length + w = (pre ++ encU w u).length := by
        simp [encU_length]
      have hgoal := ih w (pre ++ encU w u) post fun x hx => h x (List.mem_cons_of_mem u hx)
      rw [heq, hlen]
      rw [hgoal]
    simp only [List.length_cons, decUnits, h1, h2, Option.some.injEq, Prod.mk.injEq,
      List.length_append, encU_length]
    exact ⟨trivial, by omega⟩

/-- A successful unit-sequence decode is unaffected by appending bytes to the
buffer. -/
theorem decUnits_mono : ∀ (c : Nat) (buf ext : List Nat) (i w : Nat) (us : List Nat) (j : Nat),
    decUnits buf i w c = some (us, j) → decUnits (buf ++ ext) i w c = some (us, j) := by
  intro c
  induction c with
  | zero => intro buf ext i w us j h; exact h
  | succ c ih =>
    intro buf ext i w us j h
    simp only [decUnits] at h ⊢
    cases hd : decU buf i w with
    | none => simp [hd] at h
    | some u =>
      simp only [hd] at h
      simp only [decU_mono w buf ext i u hd]
      cases hr : decUnits buf (i + w) w c with
      | none => simp [hr] at h
      | some p =>
        obtain ⟨us2, j2⟩ := p
        simp only [hr] at h
        simp only [ih buf ext (i + w) w us2 j2 hr]
        exact h

/-- A successful unit-sequence decode starting inside the buffer ends inside
the buffer. -/
theorem decUnits_bound : ∀ (c : Nat) (buf : List Nat) (i w : Nat) (us : List Nat) (j : Nat),
    i ≤ buf.length → decUnits buf i w c = some (us, j) → j ≤ buf.length := by
  intro c
  induction c with
  | zero =>
    intro buf i w us j hi h
    simp only [decUnits, Option.some.injEq, Prod.mk.injEq] at h
    omega
  | succ c ih =>
    intro buf i w us j hi h
    simp only [decUnits] at h
    cases hd : decU buf i w with
    | none => simp [hd] at h
    | some u =>
      simp only [hd] at h
      cases hr : decUnits buf (i + w) w c with
      | none => simp [hr] at h
      | some p =>
        obtain ⟨us2, j2⟩ := p
        simp only [hr, Option.some.injEq, Prod.mk.injEq] at h
        have hiw : i + w ≤ buf.length := by
          cases w with
          | zero => omega
          | succ w2 => exact decU_bound w2 buf i u hd
        have := ih buf (i + w) w us2 j2 hiw hr
        omega

/-- Decoding a length-prefixed string right where it was encoded recovers
it. -/
theorem decStr_append (w : Nat) (s : List Nat) (pre post : List Nat)
    (hlen : s.length < 2 ^ 16) (hu : ∀ u ∈ s, u < 256 ^ w) :
    decStr (pre ++ (encStr w s ++ post)) pre.length w =
      some (s, pre.length + (encStr w s).length) := by
  unfold decStr encStr
  have hlen2 : s.length < 256 ^ 2 := by
    have : (256 : Nat) ^ 2 = 2 ^ 16 := by norm_num
    omega
  have h1 : decU (pre ++ ((encU 2 s.length ++ encUnits w s) ++ post)) pre.length 2 =
      some s.length := by
    have heq : pre ++ ((encU 2 s.length ++ encUnits w s) ++ post) =
        pre ++ (encU 2 s.length ++ (encUnits w s ++ post)) := by
      simp [List.append_assoc]
    rw [heq]
    exact decU_append 2 s.length pre (encUnits w s ++ post) hlen2
  have h2 : decUnits (pre ++ ((encU 2 s.length ++ encUnits w s) ++ post)) (pre.length + 2) w
      s.length = some (s, pre.length + 2 + (encUnits w s).length) := by
    have heq : pre ++ ((encU 2 s.length ++ encUnits w s) ++ post) =
        (pre ++ encU 2 s.length) ++ (encUnits w s ++ post) := by
      simp [List.append_assoc]
    have hplen : pre.length + 2 = (pre ++ encU 2 s.length).length := by
      simp [encU_length]
    rw [heq, hplen]
    rw [decUnits_append s w (pre ++ encU 2 s.length) post hu]
  simp only [h1, h2, Option.some.injEq, Prod.mk.injEq, List.length_append, encU_length]
  exact ⟨trivial, by omega⟩

/-- A successful string decode is unaffected by appending bytes to the
buffer. -/
theorem decStr_mono (buf ext : List Nat) (i w : Nat) (s : List Nat) (j : Nat)
    (h : decStr buf i w = some (s, j)) : decStr (buf ++ ext) i w = some (s, j) := by
  unfold decStr at h ⊢
  cases hd : decU buf i 2 with
  | none => simp [hd] at h
  | some len =>
    simp only [hd] at h
    simp only [decU_mono 2 buf ext i len hd]
    exact decUnits_mono len buf ext (i + 2) w s j h

/-- A successful string decode ends inside the buffer. -/
theorem decStr_bound (buf : List Nat) (i w : Nat) (s : List Nat) (j : Nat)
    (h : decStr buf i w = some (s, j)) : j ≤ buf.length := by
  unfold decStr at h
  cases hd : decU buf i 2 with
  | none => simp [hd] at h
  | some len =>
    simp only [hd] at h
    have h2 : i + 2 ≤ buf.length := decU_bound 1 buf i len hd
    exact decUnits_bound len buf (i + 2) w s j (by omega) h

/-- Decoding a boolean byte right where it was encoded recovers it. -/
theorem decBool_append (b : Bool) (pre post : List Nat) :
    decBool (pre ++ ((if b then 1 else 0) :: post)) pre.length = some (b, pre.length + 1) := by
  have hb : (pre ++ ((if b then 1 else 0) :: post))[pre.length]? =
      some (if b then 1 else 0) := by
    rw [List.getElem?_append_right (Nat.le_refl pre.length), Nat.sub_self]
    simp
  unfold decBool
  rw [hb]
  cases b <;> rfl

/-- A successful boolean decode is unaffected by appending bytes to the
buffer. -/
theorem decBool_mono (buf ext : List Nat) (i : Nat) (b : Bool) (j : Nat)
    (h : decBool buf i = some (b, j)) : decBool (buf ++ ext) i = some (b, j) := by
  unfold decBool at h ⊢
  cases hb : buf[i]? with
  | none => simp [hb] at h
  | some v =>
    obtain ⟨hlt, -⟩ := List.getElem?_eq_some_iff.mp hb
    rw [List.getElem?_append_left hlt, hb]
    rw [hb] at h
    exact h

/-- A successful boolean decode ends inside the buffer. -/
theorem decBool_bound (buf : List Nat) (i : Nat) (b : Bool) (j : Nat)
    (h : decBool buf i = some (b, j)) : j ≤ buf.length := by
  unfold decBool at h
  cases hb : buf[i]? with
  | none => simp [hb] at h
  | some v =>
    obtain ⟨hlt, -⟩ := List.getElem?_eq_some_iff.mp hb
    rw [hb] at h
    match v, h with
    | 0, h =>
      simp only [Option.some.injEq, Prod.mk.injEq] at h
      omega
    | 1, h =>
      simp only [Option.some.injEq, Prod.mk.injEq] at h
      omega

/-- A valid UTF-16 code unit fits in two bytes. -/
theorem validU16_lt (u : Nat) (h : validU16 u = true) : u < 256 ^ 2 := by
  simp only [validU16, Bool.or_eq_true, Bool.and_eq_true, decide_eq_true_eq] at h
  rcases h with h | ⟨-, h⟩ <;> omega

/-- Decoding a cell of a matching field type right where it was encoded
recovers it. -/
theorem decodeCell_append (ft : FieldType) (c : DecodedData) (pre post : List Nat)
    (hm : cellMatches ft c = true) (hw : cellWF c = true) :
    decodeCell ft (pre ++ (encodeCell c ++ post)) pre.length =
      some (c, pre.length + (encodeCell c).length) := by
  cases ft <;> cases c <;> first
    | exact Bool.noConfusion hm
    | skip
  case boolean.boolean b =>
    simp only [decodeCell, encodeCell, List.singleton_append, decBool_append b pre post,
      List.length_cons, List.length_nil]
  case i32.i32 n =>
    simp only [cellWF, decide_eq_true_eq] at hw
    have h4 : n < 256 ^ 4 := by
      have : (256 : Nat) ^ 4 = 2 ^ 32 := by norm_num
      omega
    simp only [decodeCell, encodeCell, decU_append 4 n pre post h4, encU_length]
  case f32.f32 n =>
    simp only [cellWF, decide_eq_true_eq] at hw
    have h4 : n < 256 ^ 4 := by
      have : (256 : Nat) ^ 4 = 2 ^ 32 := by norm_num
      omega
    simp only [decodeCell, encodeCell, decU_append 4 n pre post h4, encU_length]
  case stringU8.stringU8 s =>
    simp only [cellWF, Bool.and_eq_true, List.all_eq_true, decide_eq_true_eq] at hw
    obtain ⟨⟨hlen, hbytes⟩, hvalid⟩ := hw
    have hu : ∀ u ∈ s, u < 256 ^ 1 := by
      intro u hu'
      have := hbytes u hu'
      omega
    simp only [decodeCell, encodeCell, decStr_append 1 s pre post hlen hu, hvalid, if_true]
  case stringU16.stringU16 s =>
    simp only [cellWF, Bool.and_eq_true, decide_eq_true_eq] at hw
    obtain ⟨hlen, hall⟩ := hw
    have hu : ∀ u ∈ s, u < 256 ^ 2 := fun u hu' =>
      validU16_lt u (List.all_eq_true.mp hall u hu')
    simp only [decodeCell, encodeCell, decStr_append 2 s pre post hlen hu, hall, if_true]
  case optStringU16.optStringU16 o =>
    cases o with
    | none =>
      have h0 : decBool (pre ++ ([0] ++ post)) pre.length = some (false, pre.length + 1) :=
        decBool_append false pre post
      simp only [decodeCell, encodeCell, h0, List.length_cons, List.length_nil]
    | some s =>
      simp only [cellWF, Bool.and_eq_true, decide_eq_true_eq] at hw
      obtain ⟨hlen, hall⟩ := hw
      have hu : ∀ u ∈ s, u < 256 ^ 2 := fun u hu' =>
        validU16_lt u (List.all_eq_true.mp hall u hu')
      have h1 : decBool (pre ++ ((1 :: encStr 2 s) ++ post)) pre.length =
          some (true, pre.length + 1) := by
        have heq : pre ++ ((1 :: encStr 2 s) ++ post) = pre ++ (1 :: (encStr 2 s ++ post)) := by
          simp
        rw [heq]
        exact decBool_append true pre (encStr 2 s ++ post)
      have h2 : decStr (pre ++ ((1 :: encStr 2 s) ++ post)) (pre.length + 1) 2 =
          some (s, pre.length + 1 + (encStr 2 s).length) := by
        have heq : pre ++ ((1 :: encStr 2 s) ++ post) =
            (pre ++ [1]) ++ (encStr 2 s ++ post) := by
          simp
        have hplen : pre.length + 1 = (pre ++ [1]).length := by simp
        rw [heq, hplen]
        exact decStr_append 2 s (pre ++ [1]) post hlen hu
      simp only [decodeCell, encodeCell, h1, h2, hall, if_true, List.length_cons,
        Option.some.injEq, Prod.mk.injEq]
      exact ⟨trivial, by omega⟩

/-- A successful cell decode is unaffected by appending bytes to the
buffer. -/
theorem decodeCell_mono (ft : FieldType) (buf ext : List Nat) (i : Nat) (c : DecodedData)
    (j : Nat) (h : decodeCell ft buf i = some (c, j)) :
    decodeCell ft (buf ++ ext) i = some (c, j) := by
  cases ft
  case boolean =>
    simp only [decodeCell] at h ⊢
    cases hb : decBool buf i with
    | none => simp [hb] at h
    | some p =>
      obtain ⟨b, k⟩ := p
      simp only [hb] at h
      simp only [decBool_mono buf ext i b k hb]
      exact h
  case i32 =>
    simp only [decodeCell] at h ⊢
    cases hd : decU buf i 4 with
    | none => simp [hd] at h
    | some n =>
      simp only [hd] at h
      simp only [decU_mono 4 buf ext i n hd]
      exact h
  case f32 =>
    simp only [decodeCell] at h ⊢
    cases hd : decU buf i 4 with
    | none => simp [hd] at h
    | some n =>
      simp only [hd] at h
      simp only [decU_mono 4 buf ext i n hd]
      exact h
  case stringU8 =>
    simp only [decodeCell] at h ⊢
    cases hd : decStr buf i 1 with
    | none => simp [hd] at h
    | some p =>
      obtain ⟨s, k⟩ := p
      simp only [hd] at h
      simp only [decStr_mono buf ext i 1 s k hd]
      exact h
  case stringU16 =>
    simp only [decodeCell] at h ⊢
    cases hd : decStr buf i 2 with
    | none => simp [hd] at h
    | some p =>
      obtain ⟨s, k⟩ := p
      simp only [hd] at h
      simp only [decStr_mono buf ext i 2 s k hd]
      exact h
  case optStringU16 =>
    simp only [decodeCell] at h ⊢
    cases hb : decBool buf i with
    | none => simp [hb] at h
    | some p =>
      obtain ⟨b, k⟩ := p
      have hb2 := decBool_mono buf ext i b k hb
      cases b
      · simp only [hb] at h
        simp only [hb2]
        exact h
      · simp only [hb] at h
        simp only [hb2]
        cases hd : decStr buf k 2 with
        | none => simp [hd] at h
        | some q =>
          obtain ⟨s, m⟩ := q
          simp only [hd] at h
          simp only [decStr_mono buf ext k 2 s m hd]
          exact h

/-- A successful cell decode starting inside the buffer ends inside the
buffer. -/
theorem decodeCell_bound (ft : FieldType) (buf : List Nat) (i : Nat) (c : DecodedData)
    (j : Nat) (h : decodeCell ft buf i = some (c, j)) :
    j ≤ buf.length := by
  cases ft
  case boolean =>
    simp only [decodeCell] at h
    cases hb : decBool buf i with
    | none => simp [hb] at h
    | some p =>
      obtain ⟨b, k⟩ := p
      simp only [hb, Option.some.injEq, Prod.mk.injEq] at h
      obtain ⟨-, hj⟩ := h
      have := decBool_bound buf i b k hb
      omega
  case i32 =>
    simp only [decodeCell] at h
    cases hd : decU buf i 4 with
    | none => simp [hd] at h
    | some n =>
      simp only [hd, Option.some.injEq, Prod.mk.injEq] at h
      obtain ⟨-, hj⟩ := h
      have := decU_bound 3 buf i n hd
      omega
  case f32 =>
    simp only [decodeCell] at h
    cases hd : decU buf i 4 with
    | none => simp [hd] at h
    | some n =>
      simp only [hd, Option.some.injEq, Prod.mk.injEq] at h
      obtain ⟨-, hj⟩ := h
      have := decU_bound 3 buf i n hd
      omega
  case stringU8 =>
    simp only [decodeCell] at h
    cases hd : decStr buf i 1 with
    | none => simp [hd] at h
    | some p =>
      obtain ⟨s, k⟩ := p
      simp only [hd] at h
      split at h
      · simp only [Option.some.injEq, Prod.mk.injEq] at h
        obtain ⟨-, hj⟩ := h
        have := decStr_bound buf i 1 s k hd
        omega
      · cases h
  case stringU16 =>
    simp only [decodeCell] at h
    cases hd : decStr buf i 2 with
    | none => simp [hd] at h
    | some p =>
      obtain ⟨s, k⟩ := p
      simp only [hd] at h
      split at h
      · simp only [Option.some.injEq, Prod.mk.injEq] at h
        obtain ⟨-, hj⟩ := h
        have := decStr_bound buf i 2 s k hd
        omega
      · cases h
  case optStringU16 =>
    simp only [decodeCell] at h
    cases hb : decBool buf i with
    | none => simp [hb] at h
    | some p =>
      obtain ⟨b, k⟩ := p
      have hkb := decBool_bound buf i b k hb
      cases b
      · simp only [hb, Option.some.injEq, Prod.mk.injEq] at h
        obtain ⟨-, hj⟩ := h
        omega
      · simp only [hb] at h
        cases hd : decStr buf k 2 with
        | none => simp [hd] at h
        | some q =>
          obtain ⟨s, m⟩ := q
          simp only [hd] at h
          split at h
          · simp only [Option.some.injEq, Prod.mk.injEq] at h
            obtain ⟨-, hj⟩ := h
            have := decStr_bound buf k 2 s m hd
            omega
          · cases h

/-- Decoding a row of a matching shape right where it was encoded recovers
it. -/
theorem decodeRow_append : ∀ (fields : List Field) (row : List DecodedData) (pre post : List Nat),
    rowMatchesFields fields row = true → (∀ c ∈ row, cellWF c = true) →
    decodeRow fields (pre ++ (encodeRow row ++ post)) pre.length =
      some (row, pre.length + (encodeRow row).length) := by
  intro fields
  induction fields with
  | nil =>
    intro row pre post hm _
    cases row with
    | nil => simp [decodeRow, encodeRow]
    | cons c cs => exact Bool.noConfusion hm
  | cons f fs ih =>
    intro row pre post hm hw
    cases row with
    | nil => exact Bool.noConfusion hm
    | cons c cs =>
      simp only [rowMatchesFields, Bool.and_eq_true] at hm
      obtain ⟨hmc, hmr⟩ := hm
      have henc : encodeRow (c :: cs) = encodeCell c ++ encodeRow cs := by
        simp [encodeRow]
      rw [henc]
      have h1 : decodeCell f.field_type (pre ++ ((encodeCell c ++ encodeRow cs) ++ post))
          pre.length = some (c, pre.length + (encodeCell c).length) := by
        have heq : pre ++ ((encodeCell c ++ encodeRow cs) ++ post) =
            pre ++ (encodeCell c ++ (encodeRow cs ++ post)) := by
          simp [List.append_assoc]
        rw [heq]
        exact decodeCell_append f.field_type c pre (encodeRow cs ++ post) hmc
          (hw c (List.mem_cons_self c cs))
      have h2 : decodeRow fs (pre ++ ((encodeCell c ++ encodeRow cs) ++ post))
          (pre.length + (encodeCell c).length) =
          some (cs, pre.length + (encodeCell c).length + (encodeRow cs).length) := by
        have heq : pre ++ ((encodeCell c ++ encodeRow cs) ++ post) =
            (pre ++ encodeCell c) ++ (encodeRow cs ++ post) := by
          simp [List.append_assoc]
        have hplen : pre.length + (encodeCell c).length = (pre ++ encodeCell c).length := by
          simp
        rw [heq, hplen]
        exact ih cs (pre ++ encodeCell c) post hmr fun x hx => hw x (List.mem_cons_of_mem c hx)
      simp only [decodeRow, h1, h2, Option.some.injEq, Prod.mk.injEq, List.length_append]
      exact ⟨trivial, by omega⟩

/-- A successful row decode is unaffected by appending bytes to the buffer. -/
theorem decodeRow_mono : ∀ (fields : List Field) (buf ext : List Nat) (i : Nat)
    (row : List DecodedData) (j : Nat),
    decodeRow fields buf i = some (row, j) → decodeRow fields (buf ++ ext) i = some (row, j) := by
  intro fields
  induction fields with
  | nil => intro buf ext i row j h; exact h
  | cons f fs ih =>
    intro buf ext i row j h
    simp only [decodeRow] at h ⊢
    cases hc : decodeCell f.field_type buf i with
    | none => simp [hc] at h
    | some p =>
      obtain ⟨c, k⟩ := p
      simp only [hc] at h
      simp only [decodeCell_mono f.field_type buf ext i c k hc]
      cases hr : decodeRow fs buf k with
      | none => simp [hr] at h
      | some q =>
        obtain ⟨cs, m⟩ := q
        simp only [hr] at h
        simp only [ih buf ext k cs m hr]
        exact h

/-- A successful row decode starting inside the buffer ends inside the
buffer. -/
theorem decodeRow_bound : ∀ (fields : List Field) (buf : List Nat) (i : Nat)
    (row : List DecodedData) (j : Nat),
    i ≤ buf.length → decodeRow fields buf i = some (row, j) → j ≤ buf.length := by
  intro fields
  induction fields with
  | nil =>
    intro buf i row j hi h
    simp only [decodeRow, Option.some.injEq, Prod.mk.injEq] at h
    obtain ⟨-, hj⟩ := h
    omega
  | cons f fs ih =>
    intro buf i row j hi h
    simp only [decodeRow] at h
    cases hc : decodeCell f.field_type buf i with
    | none => simp [hc] at h
    | some p =>
      obtain ⟨c, k⟩ := p
      simp only [hc] at h
      cases hr : decodeRow fs buf k with
      | none => simp [hr] at h
      | some q =>
        obtain ⟨cs, m⟩ := q
        simp only [hr, Option.some.injEq, Prod.mk.injEq] at h
        obtain ⟨-, hj⟩ := h
        have hk := decodeCell_bound f.field_type buf i c k hc
        have := ih buf k cs m hk hr
        omega

/-- Decoding a sequence of matching rows right where they were encoded
recovers them. -/
theorem decodeRows_append : ∀ (rows : List (List DecodedData)) (fields : List Field)
    (pre post : List Nat),
    (∀ r ∈ rows, rowMatchesFields fields r = true ∧ ∀ c ∈ r, cellWF c = true) →
    decodeRows fields (pre ++ (encodeRows rows ++ post)) pre.length rows.length =
      some (rows, pre.length + (encodeRows rows).length) := by
  intro rows
  induction rows with
  | nil =>
    intro fields pre post _
    simp [decodeRows, encodeRows]
  | cons r rs ih =>
    intro fields pre post h
    obtain ⟨hm, hw⟩ := h r (List.mem_cons_self r rs)
    have henc : encodeRows (r :: rs) = encodeRow r ++ encodeRows rs := by
      simp [encodeRows]
    rw [henc]
    have h1 : decodeRow fields (pre ++ ((encodeRow r ++ encodeRows rs) ++ post)) pre.length =
        some (r, pre.length + (encodeRow r).length) := by
      have heq : pre ++ ((encodeRow r ++ encodeRows rs) ++ post) =
          pre ++ (encodeRow r ++ (encodeRows rs ++ post)) := by
        simp [List.append_assoc]
      rw [heq]
      exact decodeRow_append fields r pre (encodeRows rs ++ post) hm hw
    have h2 : decodeRows fields (pre ++ ((encodeRow r ++ encodeRows rs) ++ post))
        (pre.length + (encodeRow r).length) rs.length =
        some (rs, pre.length + (encodeRow r).length + (encodeRows rs).length) := by
      have heq : pre ++ ((encodeRow r ++ encodeRows rs) ++ post) =
          (pre ++ encodeRow r) ++ (encodeRows rs ++ post) := by
        simp [List.append_assoc]
      have hplen : pre.length + (encodeRow r).length = (pre ++ encodeRow r).length := by
        simp
      rw [heq, hplen]
      exact ih fields (pre ++ encodeRow r) post fun x hx => h x (List.mem_cons_of_mem r hx)
    simp only [List.length_cons, decodeRows, h1, h2, Option.some.injEq, Prod.mk.injEq,
      List.length_append]
    exact ⟨trivial, by omega⟩

/-- A successful multi-row decode is unaffected by appending bytes to the
buffer. -/
theorem decodeRows_mono : ∀ (cnt : Nat) (fields : List Field) (buf ext : List Nat) (i : Nat)
    (rows : List (List DecodedData)) (j : Nat),
    decodeRows fields buf i cnt = some (rows, j) →
    decodeRows fields (buf ++ ext) i cnt = some (rows, j) := by
  intro cnt
  induction cnt with
  | zero => intro fields buf ext i rows j h; exact h
  | succ c ih =>
    intro fields buf ext i rows j h
    simp only [decodeRows] at h ⊢
    cases hr : decodeRow fields buf i with
    | none => simp [hr] at h
    | some p =>
      obtain ⟨r, k⟩ := p
      simp only [hr] at h
      simp only [decodeRow_mono fields buf ext i r k hr]
      cases hs : decodeRows fields buf k c with
      | none => simp [hs] at h
      | some q =>
        obtain ⟨rs, m⟩ := q
        simp only [hs] at h
        simp only [ih fields buf ext k rs m hs]
        exact h

/-- A successful multi-row decode starting inside the buffer ends inside the
buffer. -/
theorem decodeRows_bound : ∀ (cnt : Nat) (fields : List Field) (buf : List Nat) (i : Nat)
    (rows : List (List DecodedData)) (j : Nat),
    i ≤ buf.length → decodeRows fields buf i cnt = some (rows, j) → j ≤ buf.length := by
  intro cnt
  induction cnt with
  | zero =>
    intro fields buf i rows j hi h
    simp only [decodeRows, Option.some.injEq, Prod.mk.injEq] at h
    obtain ⟨-, hj⟩ := h
    omega
  | succ c ih =>
    intro fields buf i rows j hi h
    simp only [decodeRows] at h
    cases hr : decodeRow fields buf i with
    | none => simp [hr] at h
    | some p =>
      obtain ⟨r, k⟩ := p
      simp only [hr] at h
      cases hs : decodeRows fields buf k c with
      | none => simp [hs] at h
      | some q =>
        obtain ⟨rs, m⟩ := q
        simp only [hs, Option.some.injEq, Prod.mk.injEq] at h
        obtain ⟨-, hj⟩ := h
        have hk := decodeRow_bound fields buf i r k hi hr
        have := ih fields buf k rs m hk hs
        omega

/-- Unfolding of `Loc.read` past all header checks and the schema lookup, for
a buffer whose header decodes cleanly to a known Definition. -/
theorem read_unfold (buf : List Nat) (schema : Schema) (vf : List (Nat × Definition))
    (defn : Definition) (ver cnt : Nat)
    (hlen : 14 ≤ buf.length)
    (hmark : decU buf 0 2 = some BYTEORDER_MARK)
    (htag : decUnits buf 2 1 3 = some (PACKED_FILE_TYPE, 5))
    (hver : decU buf 6 4 = some ver)
    (hcnt : decU buf 10 4 = some cnt)
    (hvf : schema.versioned_file_loc = some vf)
    (hdef : getVersion vf ver = some defn) :
    Loc.read buf schema =
      match decodeRows defn.fields buf 14 cnt with
      | none => .error .decodeError
      | some (entries, index) =>
        if index ≠ buf.length then
          .error (.packedFileSizeIsNotWhatWeExpect buf.length index)
        else .ok ⟨⟨defn, entries⟩⟩ := by
  unfold Loc.read
  rw [if_neg (by omega)]
  simp only [hmark]
  rw [if_neg (fun he => he rfl)]
  simp only [htag]
  rw [if_neg (fun hcon => hcon (by decide)), if_neg (fun he => he rfl)]
  simp only [hver, hcnt, hvf, hdef]

/-- Reading back the exact byte image that `save` produces yields the original
Definition and entries. -/
theorem read_encoded (defn : Definition) (entries : List (List DecodedData))
    (schema : Schema) (vf : List (Nat × Definition))
    (hv : defn.version < 2 ^ 32) (hc : entries.length < 2 ^ 32)
    (hrows : ∀ r ∈ entries, rowMatchesFields defn.fields r = true ∧ ∀ c ∈ r, cellWF c = true)
    (hvf : schema.versioned_file_loc = some vf)
    (hdef : getVersion vf defn.version = some defn) :
    Loc.read (encU 2 BYTEORDER_MARK ++ PACKED_FILE_TYPE ++ [0] ++ encU 4 defn.version ++
      encU 4 entries.length ++ encodeRows entries) schema = .ok ⟨⟨defn, entries⟩⟩ := by
  have hv4 : defn.version < 256 ^ 4 := by
    have h2 : (256 : Nat) ^ 4 = 2 ^ 32 := by norm_num
    omega
  have hc4 : entries.length < 256 ^ 4 := by
    have h2 : (256 : Nat) ^ 4 = 2 ^ 32 := by norm_num
    omega
  have hmark : decU (encU 2 BYTEORDER_MARK ++ PACKED_FILE_TYPE ++ [0] ++
      encU 4 defn.version ++ encU 4 entries.length ++ encodeRows entries) 0 2 =
      some BYTEORDER_MARK := by
    have hBeq : encU 2 BYTEORDER_MARK ++ PACKED_FILE_TYPE ++ [0] ++ encU 4 defn.version ++
        encU 4 entries.length ++ encodeRows entries =
        encU 2 BYTEORDER_MARK ++ (PACKED_FILE_TYPE ++ ([0] ++ (encU 4 defn.version ++
          (encU 4 entries.length ++ encodeRows entries)))) := by
      simp [List.append_assoc]
    rw [hBeq]
    have h := decU_append 2 BYTEORDER_MARK []
      (PACKED_FILE_TYPE ++ ([0] ++ (encU 4 defn.version ++
        (encU 4 entries.length ++ encodeRows entries)))) (by decide)
    simpa using h
  have htag : decUnits (encU 2 BYTEORDER_MARK ++ PACKED_FILE_TYPE ++ [0] ++
      encU 4 defn.version ++ encU 4 entries.length ++ encodeRows entries) 2 1 3 =
      some (PACKED_FILE_TYPE, 5) := by
    have hBeq : encU 2 BYTEORDER_MARK ++ PACKED_FILE_TYPE ++ [0] ++ encU 4 defn.version ++
        encU 4 entries.length ++ encodeRows entries =
        encU 2 BYTEORDER_MARK ++ (PACKED_FILE_TYPE ++ ([0] ++ (encU 4 defn.version ++
          (encU 4 entries.length ++ encodeRows entries)))) := by
      simp [List.append_assoc]
    rw [hBeq]
    have henc : encUnits 1 PACKED_FILE_TYPE = PACKED_FILE_TYPE := by decide
    have h := decUnits_append PACKED_FILE_TYPE 1 (encU 2 BYTEORDER_MARK)
      ([0] ++ (encU 4 defn.version ++ (encU 4 entries.length ++ encodeRows entries)))
      (by decide)
    rw [henc] at h
    simpa [encU_length, PACKED_FILE_TYPE] using h
  have hverd : decU (encU 2 BYTEORDER_MARK ++ PACKED_FILE_TYPE ++ [0] ++
      encU 4 defn.version ++ encU 4 entries.length ++ encodeRows entries) 6 4 =
      some defn.version := by
    have hBeq : encU 2 BYTEORDER_MARK ++ PACKED_FILE_TYPE ++ [0] ++ encU 4 defn.version ++
        encU 4 entries.length ++ encodeRows entries =
        (encU 2 BYTEORDER_MARK ++ (PACKED_FILE_TYPE ++ [0])) ++ (encU 4 defn.version ++
          (encU 4 entries.length ++ encodeRows entries)) := by
      simp [List.append_assoc]
    rw [hBeq]
    have hplen : (encU 2 BYTEORDER_MARK ++ (PACKED_FILE_TYPE ++ [0])).length = 6 := by
      simp [encU_length, PACKED_FILE_TYPE]
    rw [show (6 : Nat) = (encU 2 BYTEORDER_MARK ++ (PACKED_FILE_TYPE ++ [0])).length
      from hplen.symm]
    exact decU_append 4 defn.version (encU 2 BYTEORDER_MARK ++ (PACKED_FILE_TYPE ++ [0]))
      (encU 4 entries.length ++ encodeRows entries) hv4
  have hcntd : decU (encU 2 BYTEORDER_MARK ++ PACKED_FILE_TYPE ++ [0] ++
      encU 4 defn.version ++ encU 4 entries.length ++ encodeRows entries) 10 4 =
      some entries.length := by
    have hBeq : encU 2 BYTEORDER_MARK ++ PACKED_FILE_TYPE ++ [0] ++ encU 4 defn.version ++
        encU 4 entries.length ++ encodeRows entries =
        (encU 2 BYTEORDER_MARK ++ (PACKED_FILE_TYPE ++ ([0] ++ encU 4 defn.version))) ++
          (encU 4 entries.length ++ encodeRows entries) := by
      simp [List.append_assoc]
    rw [hBeq]
    have hplen : (encU 2 BYTEORDER_MARK ++
        (PACKED_FILE_TYPE ++ ([0] ++ encU 4 defn.version))).length = 10 := by
      simp [encU_length, PACKED_FILE_TYPE]
    rw [show (10 : Nat) = (encU 2 BYTEORDER_MARK ++
      (PACKED_FILE_TYPE ++ ([0] ++ encU 4 defn.version))).length from hplen.symm]
    exact decU_append 4 entries.length
      (encU 2 BYTEORDER_MARK ++ (PACKED_FILE_TYPE ++ ([0] ++ encU 4 defn.version)))
      (encodeRows entries) hc4
  have hrowsd : decodeRows defn.fields (encU 2 BYTEORDER_MARK ++ PACKED_FILE_TYPE ++ [0] ++
      encU 4 defn.version ++ encU 4 entries.length ++ encodeRows entries) 14 entries.length =
      some (entries, 14 + (encodeRows entries).length) := by
    have hBeq : encU 2 BYTEORDER_MARK ++ PACKED_FILE_TYPE ++ [0] ++ encU 4 defn.version ++
        encU 4 entries.length ++ encodeRows entries =
        (encU 2 BYTEORDER_MARK ++ (PACKED_FILE_TYPE ++ ([0] ++ (encU 4 defn.version ++
          encU 4 entries.length)))) ++ encodeRows entries := by
      simp [List.append_assoc]
    rw [hBeq]
    have h := decodeRows_append entries defn.fields
      (encU 2 BYTEORDER_MARK ++ (PACKED_FILE_TYPE ++ ([0] ++ (encU 4 defn.version ++
        encU 4 entries.length)))) [] hrows
    rw [List.append_nil] at h
    have hplen : (encU 2 BYTEORDER_MARK ++ (PACKED_FILE_TYPE ++ ([0] ++
        (encU 4 defn.version ++ encU 4 entries.length)))).length = 14 := by
      simp [encU_length, PACKED_FILE_TYPE]
    rw [hplen] at h
    exact h
  have hlenB : (encU 2 BYTEORDER_MARK ++ PACKED_FILE_TYPE ++ [0] ++ encU 4 defn.version ++
      encU 4 entries.length ++ encodeRows entries).length =
      14 + (encodeRows entries).length := by
    simp [encU_length, PACKED_FILE_TYPE]
    omega
  have hread := read_unfold _ schema vf defn defn.version entries.length
    (by rw [hlenB]; omega) hmark htag hverd hcntd hvf hdef
  simp only [hrowsd] at hread
  rw [if_neg (fun hne => hne hlenB.symm)] at hread
  exact hread

/-- C2: for a well-formed Loc table whose version the schema resolves to its
own Definition, `save` succeeds and `read` on the saved bytes returns the
identical table — same version, same rows, same order. -/
theorem save_read_roundtrip (t : Loc) (schema : Schema) (vf : List (Nat × Definition))
    (hwf : t.wf = true)
    (hvf : schema.versioned_file_loc = some vf)
    (hdef : getVersion vf t.table.definition.version = some t.table.definition) :
    ∃ bytes, t.save = .ok bytes ∧ Loc.read bytes schema = .ok t := by
  simp only [Loc.wf, Bool.and_eq_true, List.all_eq_true, decide_eq_true_eq] at hwf
  obtain ⟨⟨hv, hc⟩, hrows⟩ := hwf
  have hrows2 : ∀ r ∈ t.table.entries, rowMatchesFields t.table.definition.fields r = true ∧
      ∀ c ∈ r, cellWF c = true := fun r hr => (hrows r hr)
  have hencok : t.table.encode = .ok (encodeRows t.table.entries) := by
    unfold Table.encode
    rw [if_pos (List.all_eq_true.mpr fun r hr => (hrows2 r hr).1)]
  have hsave : t.save = .ok (encU 2 BYTEORDER_MARK ++ PACKED_FILE_TYPE ++ [0] ++
      encU 4 t.table.definition.version ++ encU 4 t.table.entries.length ++
      encodeRows t.table.entries) := by
    simp only [Loc.save, hencok]
  exact ⟨_, hsave,
    read_encoded t.table.definition t.table.entries schema vf hv hc hrows2 hvf hdef⟩

/-- C2 witness: the concrete one-row table round-trips through its own
schema. -/
theorem save_read_roundtrip_witness :
    ∃ bytes, Loc.save locEx = .ok bytes ∧ Loc.read bytes schema1 = .ok locEx :=
  save_read_roundtrip locEx schema1 [(1, locDef1)] (by decide) rfl (by decide)

/-- The byte image of `locEx`: the little-endian 14-byte header (marker
`FF FE`, tag `LOC`, padding, version 1, row count 1) followed by the encoded
row (key="a", text="b", tooltip=false). -/
def locBufOk : List Nat :=
  [255, 254, 76, 79, 67, 0, 1, 0, 0, 0, 1, 0, 0, 0, 1, 0, 97, 0, 1, 0, 98, 0, 0]

/-- C3 (amended): once the header checks pass, a Definition is resolved and
all rows decode, `read` fails with size-mismatch carrying the buffer length
and final cursor exactly when the cursor does not land on the buffer's end;
appending any extra bytes to such a buffer therefore always produces the
size-mismatch error.  (Removing a byte instead makes the row decode itself
fail, with the propagated primitive decode error — see the counterexample.) -/
theorem read_size_mismatch_exactness (buf : List Nat) (schema : Schema)
    (vf : List (Nat × Definition)) (defn : Definition) (ver cnt : Nat)
    (rows : List (List DecodedData)) (i : Nat)
    (hlen : 14 ≤ buf.length)
    (hmark : decU buf 0 2 = some BYTEORDER_MARK)
    (htag : decUnits buf 2 1 3 = some (PACKED_FILE_TYPE, 5))
    (hver : decU buf 6 4 = some ver)
    (hcnt : decU buf 10 4 = some cnt)
    (hvf : schema.versioned_file_loc = some vf)
    (hdef : getVersion vf ver = some defn)
    (hrows : decodeRows defn.fields buf 14 cnt = some (rows, i)) :
    (Loc.read buf schema = .error (.packedFileSizeIsNotWhatWeExpect buf.length i) ↔
      i ≠ buf.length) ∧
    ∀ extra : List Nat, extra ≠ [] →
      Loc.read (buf ++ extra) schema =
        .error (.packedFileSizeIsNotWhatWeExpect (buf ++ extra).length i) := by
  have hread := read_unfold buf schema vf defn ver cnt hlen hmark htag hver hcnt hvf hdef
  simp only [hrows] at hread
  constructor
  · by_cases hi : i = buf.length
    · rw [if_neg (fun hne => hne hi)] at hread
      simp [hread, hi]
    · rw [if_pos hi] at hread
      simp [hread, hi]
  · intro extra hne
    have hlenx : 14 ≤ (buf ++ extra).length := by
      rw [List.length_append]
      omega
    have hread2 := read_unfold (buf ++ extra) schema vf defn ver cnt hlenx
      (decU_mono 2 buf extra 0 BYTEORDER_MARK hmark)
      (decUnits_mono 3 buf extra 2 1 PACKED_FILE_TYPE 5 htag)
      (decU_mono 4 buf extra 6 ver hver)
      (decU_mono 4 buf extra 10 cnt hcnt) hvf hdef
    simp only [decodeRows_mono cnt defn.fields buf extra 14 rows i hrows] at hread2
    have hib : i ≤ buf.length := decodeRows_bound cnt defn.fields buf 14 rows i (by omega) hrows
    have hpos : 0 < extra.length := List.length_pos.mpr hne
    rw [if_pos (by rw [List.length_append]; omega)] at hread2
    exact hread2

/-- C3 witness: appending one byte to the valid concrete buffer produces the
size-mismatch error with the old cursor position 23. -/
theorem read_size_mismatch_exactness_witness :
    Loc.read (locBufOk ++ [0]) schema1 =
      .error (.packedFileSizeIsNotWhatWeExpect (locBufOk ++ [0]).length 23) :=
  (read_size_mismatch_exactness locBufOk schema1 [(1, locDef1)] locDef1 1 1 [rowAB] 23
    (by decide) (by decide) (by decide) (by decide) (by decide) rfl (by decide)
    (by decide)).2 [0] (by decide)

/-- C3 counterexample: removing the last byte of the valid concrete buffer
makes `read` fail with the propagated primitive decode error, not with the
size-mismatch error the claim predicts. -/
theorem read_truncated_gives_decode_error :
    Loc.read locBufOk.dropLast schema1 = .error .decodeError := by
  decide

/-- C4 (amended): a buffer shorter than 14 bytes, or whose first two bytes do
not little-endian-decode to 65279, or whose three tag bytes are decodable text
other than `LOC`, is rejected with the not-a-loc-file error, for every schema;
tag bytes that are not decodable text instead propagate the string-decode
error (see the counterexample). -/
theorem read_header_rejects (buf : List Nat) (schema : Schema)
    (h : buf.length < 14 ∨
      (14 ≤ buf.length ∧ ∃ m, decU buf 0 2 = some m ∧ m ≠ BYTEORDER_MARK) ∨
      (14 ≤ buf.length ∧ decU buf 0 2 = some BYTEORDER_MARK ∧
        ∃ tb j, decUnits buf 2 1 3 = some (tb, j) ∧ utf8Valid tb = true ∧
          tb ≠ PACKED_FILE_TYPE)) :
    Loc.read buf schema = .error .locPackedFileIsNotALocPackedFile := by
  rcases h with h | ⟨hlen, m, hm, hne⟩ | ⟨hlen, hm, tb, j, htb, hval, hne⟩
  · unfold Loc.read
    rw [if_pos h]
  · unfold Loc.read
    rw [if_neg (by omega)]
    simp only [hm]
    rw [if_pos (Ne.symm hne)]
  · unfold Loc.read
    rw [if_neg (by omega)]
    simp only [hm]
    rw [if_neg (fun he => he rfl)]
    simp only [htb]
    rw [if_neg (fun hcon => hcon hval), if_pos (Ne.symm hne)]

/-- C4 witness: a one-byte buffer is rejected as not a Loc file. -/
theorem read_header_rejects_witness :
    Loc.read [0] schema1 = .error .locPackedFileIsNotALocPackedFile :=
  read_header_rejects [0] schema1 (Or.inl (by decide))

/-- A 14-byte buffer with the correct marker whose tag bytes `FF FF FF` are
not decodable text. -/
def badTagBuf : List Nat := [255, 254, 255, 255, 255, 0, 1, 0, 0, 0, 0, 0, 0, 0]

/-- C4 counterexample: tag bytes that are not valid text make `read` fail with
the propagated string-decode error, not with the not-a-loc-file error the
claim predicts for every tag other than `LOC`. -/
theorem read_invalid_tag_gives_decode_error :
    Loc.read badTagBuf schema1 = .error .decodeError := by
  decide

/-- C5: a buffer that passes the header checks and carries row count 0 whose
version the schema cannot resolve fails with the distinct
empty-table-no-definition error — not with size-mismatch and not with
success. -/
theorem read_empty_table_no_definition (buf : List Nat) (schema : Schema) (ver : Nat)
    (hlen : 14 ≤ buf.length)
    (hmark : decU buf 0 2 = some BYTEORDER_MARK)
    (htag : decUnits buf 2 1 3 = some (PACKED_FILE_TYPE, 5))
    (hver : decU buf 6 4 = some ver)
    (hcnt : decU buf 10 4 = some 0)
    (hnodef : schema.versioned_file_loc = none ∨
      ∃ vf, schema.versioned_file_loc = some vf ∧ getVersion vf ver = none) :
    Loc.read buf schema = .error .tableEmptyWithNoDefinition := by
  unfold Loc.read
  rw [if_neg (by omega)]
  simp only [hmark]
  rw [if_neg (fun he => he rfl)]
  simp only [htag]
  rw [if_neg (fun hcon => hcon (by decide)), if_neg (fun he => he rfl)]
  simp only [hver, hcnt]
  rcases hnodef with h | ⟨vf, hvf, hgv⟩
  · simp [h]
  · simp [hvf, hgv]

/-- A valid empty Loc buffer: version 1, row count 0, no rows. -/
def emptyLocBuf : List Nat := [255, 254, 76, 79, 67, 0, 1, 0, 0, 0, 0, 0, 0, 0]

/-- C5 witness: version 1, row count 0, a schema with no Definition for
version 1. -/
theorem read_empty_table_no_definition_witness :
    Loc.read emptyLocBuf ⟨some []⟩ = .error .tableEmptyWithNoDefinition :=
  read_empty_table_no_definition emptyLocBuf ⟨some []⟩ 1 (by decide) (by decide) (by decide)
    (by decide) (by decide) (Or.inr ⟨[], rfl, rfl⟩)

/-- The byte sequence the specification's concrete scenario writes down:
`FE FF` first and the version and count fields in big-endian order, followed
by the encoded row (key="a", text="b", tooltip=false). -/
def locBufSpec : List Nat :=
  [254, 255, 76, 79, 67, 0, 0, 0, 0, 1, 0, 0, 0, 1, 1, 0, 97, 0, 1, 0, 98, 0, 0]

/-- A schema resolving both version 1 and version 16777216 (the value the
scenario's version bytes decode to little-endian) to the three-column Loc
Definition. -/
def schemaBoth : Schema := ⟨some [(1, locDef1), (16777216, locDef1)]⟩

/-- C9 counterexample: the specification's exact byte sequence is rejected as
not a Loc file — its first two bytes `FE FF` little-endian-decode to 65534,
not to the required 65279 — whatever three-column Definitions the schema
provides. -/
theorem read_spec_bytes_rejected :
    Loc.read locBufSpec schemaBoth = .error .locPackedFileIsNotALocPackedFile := by
  decide

/-- C9 (amended): with the header fields written little-endian — marker bytes
`FF FE`, version `01 00 00 00`, row count `01 00 00 00` — followed by the
encoded row (key="a", text="b", tooltip=false), `read` succeeds with version 1
and exactly one row, and `save` on the result reproduces the identical byte
sequence. -/
theorem read_concrete_roundtrip :
    Loc.read locBufOk schema1 = .ok locEx ∧
      locEx.table.definition.version = 1 ∧ locEx.table.entries.length = 1 ∧
      Loc.save locEx = .ok locBufOk := by
  decide

end Rpfm
